import Mathlib

/-
Shallow embedding of src/plugins/yaml_edit.py: the key-path parser
(parse_key_path), the list padder (ensure_list_size), the structural
patcher (set_nested_value) and the change-application / changed-flag
logic of main.
-/

namespace YamlEdit

/-- A document node: the Python values the module manipulates
(dict, list, str, int, bool, None). -/
inductive Node where
  | str (s : String)
  | int (n : Int)
  | bool (b : Bool)
  | null
  | seq (items : List Node)
  | map (entries : List (String × Node))
  deriving Repr

mutual

/-- Deep structural equality of nodes, Python `==` on the loaded data. -/
def beqNode : Node → Node → Bool
  | .str x, .str y => x == y
  | .int x, .int y => x == y
  | .bool x, .bool y => x == y
  | .null, .null => true
  | .seq x, .seq y => beqNodeList x y
  | .map x, .map y => beqEntryList x y
  | _, _ => false

/-- Elementwise equality of node lists. -/
def beqNodeList : List Node → List Node → Bool
  | [], [] => true
  | x :: xs, y :: ys => beqNode x y && beqNodeList xs ys
  | _, _ => false

/-- Elementwise equality of (key, node) entry lists. -/
def beqEntryList : List (String × Node) → List (String × Node) → Bool
  | [], [] => true
  | (k1, v1) :: xs, (k2, v2) :: ys => k1 == k2 && beqNode v1 v2 && beqEntryList xs ys
  | _, _ => false

end

/-- The three structural equality testers agree with propositional
equality, at every size bound simultaneously. -/
theorem beq_iff_all : ∀ n : Nat,
    (∀ x y : Node, sizeOf x ≤ n → (beqNode x y = true ↔ x = y))
  ∧ (∀ xs ys : List Node, sizeOf xs ≤ n → (beqNodeList xs ys = true ↔ xs = ys))
  ∧ (∀ xs ys : List (String × Node), sizeOf xs ≤ n → (beqEntryList xs ys = true ↔ xs = ys)) := by
  intro n
  induction n using Nat.strong_induction_on with
  | _ n ih =>
    have IHnode : ∀ m, m < n → ∀ x y : Node, sizeOf x ≤ m →
        (beqNode x y = true ↔ x = y) := fun m hm => (ih m hm).1
    have IHlist : ∀ m, m < n → ∀ xs ys : List Node, sizeOf xs ≤ m →
        (beqNodeList xs ys = true ↔ xs = ys) := fun m hm => (ih m hm).2.1
    have IHmap : ∀ m, m < n → ∀ xs ys : List (String × Node), sizeOf xs ≤ m →
        (beqEntryList xs ys = true ↔ xs = ys) := fun m hm => (ih m hm).2.2
    refine ⟨?_, ?_, ?_⟩
    · intro x y hx
      cases x with
      | str s => cases y <;> simp [beqNode]
      | int m => cases y <;> simp [beqNode]
      | bool b => cases y <;> simp [beqNode]
      | null => cases y <;> simp [beqNode]
      | seq xs =>
          simp only [Node.seq.sizeOf_spec] at hx
          cases y <;> simp [beqNode]
          next ys => exact IHlist (sizeOf xs) (by omega) xs ys (le_refl _)
      | map xs =>
          simp only [Node.map.sizeOf_spec] at hx
          cases y <;> simp [beqNode]
          next ys => exact IHmap (sizeOf xs) (by omega) xs ys (le_refl _)
    · intro xs ys hx
      cases xs with
      | nil => cases ys <;> simp [beqNodeList]
      | cons x xs =>
          simp only [List.cons.sizeOf_spec] at hx
          cases ys with
          | nil => simp [beqNodeList]
          | cons y ys =>
              have h1 := IHnode (sizeOf x) (by omega) x y (le_refl _)
              have h2 := IHlist (sizeOf xs) (by omega) xs ys (le_refl _)
              simp [beqNodeList, h1, h2]
    · intro xs ys hx
      cases xs with
      | nil => cases ys <;> simp [beqEntryList]
      | cons x xs =>
          obtain ⟨k1, v1⟩ := x
          simp only [List.cons.sizeOf_spec, Prod.mk.sizeOf_spec] at hx
          cases ys with
          | nil => simp [beqEntryList]
          | cons y ys =>
              obtain ⟨k2, v2⟩ := y
              have h1 := IHnode (sizeOf v1) (by omega) v1 v2 (le_refl _)
              have h2 := IHmap (sizeOf xs) (by omega) xs ys (le_refl _)
              simp [beqEntryList, h1, h2, and_assoc]

/-- beqNode decides propositional equality. -/
theorem beqNode_iff_eq (x y : Node) : beqNode x y = true ↔ x = y :=
  (beq_iff_all (sizeOf x)).1 x y (le_refl _)

instance : DecidableEq Node := fun x y => decidable_of_iff _ (beqNode_iff_eq x y)

/-- Python `type(x).__name__` for the node kinds above. -/
def Node.typeName : Node → String
  | .str _ => "str"
  | .int _ => "int"
  | .bool _ => "bool"
  | .null => "NoneType"
  | .seq _ => "list"
  | .map _ => "dict"

/-- A parsed path segment: list index (int) or dict key (string). -/
inductive Seg where
  | idx (i : Int)
  | key (k : String)
  deriving DecidableEq, Repr

/-- Python `str.strip(…)` for one end: drop matching characters. -/
def pyStrip (p : Char → Bool) (l : List Char) : List Char :=
  ((l.dropWhile p).reverse.dropWhile p).reverse

/-- Whitespace characters stripped by Python `str.strip()`. -/
def isSpaceChar (c : Char) : Bool :=
  c = ' ' ∨ c = '\t' ∨ c = '\n' ∨ c = '\r'

/-- `current_segment.strip('"').strip("'").strip()` from the `]` branch. -/
def bracketContent (cur : List Char) : List Char :=
  pyStrip isSpaceChar (pyStrip (fun c => c = '\'') (pyStrip (fun c => c = '"') cur))

/-- Value of a run of decimal digits. -/
def digitsToNat (l : List Char) : Nat :=
  l.foldl (fun acc c => acc * 10 + (c.toNat - '0'.toNat)) 0

/-- A nonempty all-digit run, else failure. -/
def pyIntCore (d : List Char) : Option Nat :=
  if d ≠ [] ∧ d.all Char.isDigit then some (digitsToNat d) else none

/-- Python `int(s)` on the already-stripped bracket content: an optional
sign followed by decimal digits, `none` on ValueError. -/
def pyInt (l : List Char) : Option Int :=
  match l with
  | [] => none
  | c :: d =>
      if c = '-' then (pyIntCore d).map (fun n => -(n : Int))
      else if c = '+' then (pyIntCore d).map (fun n => (n : Int))
      else (pyIntCore (c :: d)).map (fun n => (n : Int))

/-- The loop state of parse_key_path: segments so far, the accumulating
current segment, and the in_brackets flag. -/
structure ParseState where
  segments : List Seg
  current : List Char
  in_brackets : Bool
  deriving Repr

/-- `if current_segment: segments.append(current_segment)`. -/
def flushCurrent (st : ParseState) : List Seg :=
  if st.current = [] then st.segments else st.segments ++ [Seg.key (String.mk st.current)]

/-- One iteration of the character loop of parse_key_path. -/
def parseStep (st : ParseState) (c : Char) : ParseState :=
  if c = '.' ∧ st.in_brackets = false then
    { segments := flushCurrent st, current := [], in_brackets := st.in_brackets }
  else if c = '[' then
    { segments := flushCurrent st, current := [], in_brackets := true }
  else if c = ']' then
    let content := bracketContent st.current
    let seg := match pyInt content with
      | some i => Seg.idx i
      | none => Seg.key (String.mk content)
    { segments := st.segments ++ [seg], current := [], in_brackets := false }
  else
    { st with current := st.current ++ [c] }

/-- parse_key_path: run the character loop, then flush any leftover. -/
def parse_key_path (key_path : String) : List Seg :=
  flushCurrent (key_path.data.foldl parseStep ⟨[], [], false⟩)

example : parse_key_path "a.b.c" = [Seg.key "a", Seg.key "b", Seg.key "c"] := by decide
example : parse_key_path "list[0]" = [Seg.key "list", Seg.idx 0] := by decide
example : parse_key_path "[-1]" = [Seg.idx (-1)] := by decide
example : parse_key_path "serve.vllm.vllm_args[1]" =
    [Seg.key "serve", Seg.key "vllm", Seg.key "vllm_args", Seg.idx 1] := by decide

/-- Python dict lookup on an insertion-ordered entry list. -/
def mapGet : List (String × Node) → String → Option Node
  | [], _ => none
  | (k, v) :: rest, key => if k = key then some v else mapGet rest key

/-- Python dict insert-or-overwrite: overwrite keeps the entry's
position, a fresh key is appended at the end. -/
def mapSet : List (String × Node) → String → Node → List (String × Node)
  | [], key, value => [(key, value)]
  | (k, v) :: rest, key, value =>
      if k = key then (k, value) :: rest else (k, v) :: mapSet rest key value

/-- ensure_list_size: `while len(lst) <= index: lst.append(None)`. -/
def ensure_list_size (lst : List Node) (index : Int) : List Node :=
  if (lst.length : Int) ≤ index then
    lst ++ List.replicate (index + 1 - lst.length).toNat Node.null
  else lst

/-- Python list indexing: a non-negative index is used as is when in
range, a negative index counts from the end; out of range is IndexError. -/
def pyIdx (len : Nat) (i : Int) : Option Nat :=
  if 0 ≤ i then (if i < (len : Int) then some i.toNat else none)
  else (if 0 ≤ (len : Int) + i then some ((len : Int) + i).toNat else none)

/-- `x is None`. -/
def Node.isNull : Node → Bool
  | .null => true
  | _ => false

/-- The body of set_nested_value after parsing: the traversal loop over
`segments[:-1]` followed by the final assignment.  Mutation through
`ref[seg] = …` is modelled by rebuilding the node on the way out.  In
the two coercion branches the source rebinds the local `ref` to a fresh
empty container, which detaches it from the tree: the recursive work is
kept only for its error effect and the node in the tree stays the
original empty container. -/
def set_nested_value_go : Node → List Seg → Node → Except String Node
  | _, [], _ =>
      -- `segments[-1]` on an empty list raises IndexError
      .error "list index out of range"
  | ref, [Seg.idx i], value =>
      match ref with
      | .seq lst =>
          let lst2 := ensure_list_size lst i
          match pyIdx lst2.length i with
          | some j => .ok (.seq (lst2.set j value))
          | none => .error "list assignment index out of range"
      | other =>
          .error ("Expected a list for final segment " ++ toString i ++ ", found "
            ++ other.typeName)
  | ref, [Seg.key k], value =>
      match ref with
      | .map m => .ok (.map (mapSet m k value))
      | other =>
          .error ("Expected a dict for final segment \'" ++ k ++ "\', found "
            ++ other.typeName)
  | ref, Seg.idx i :: s2 :: rest, value =>
      match ref with
      | .seq lst =>
          let lst2 := ensure_list_size lst i
          match pyIdx lst2.length i with
          | some j =>
              let child := lst2.getD j Node.null
              let child2 := if child.isNull then Node.map [] else child
              match set_nested_value_go child2 (s2 :: rest) value with
              | .ok child3 => .ok (.seq (lst2.set j child3))
              | .error e => .error e
          | none => .error "list index out of range"
      | .map [] =>
          -- `ref = []`: the coerced list is a fresh local object
          if 0 ≤ i then
            match set_nested_value_go (Node.map []) (s2 :: rest) value with
            | .ok _ => .ok (Node.map [])
            | .error e => .error e
          else .error "list index out of range"
      | other =>
          .error ("Expected a list at segment " ++ toString i ++ ", found "
            ++ other.typeName)
  | ref, Seg.key k :: s2 :: rest, value =>
      match ref with
      | .map m =>
          let child := match mapGet m k with
            | some v => v
            | none => Node.map []
          match set_nested_value_go child (s2 :: rest) value with
          | .ok child2 => .ok (.map (mapSet m k child2))
          | .error e => .error e
      | .seq [] =>
          -- `ref = {}`: the coerced dict is a fresh local object
          match set_nested_value_go (Node.map []) (s2 :: rest) value with
          | .ok _ => .ok (Node.seq [])
          | .error e => .error e
      | other =>
          .error ("Expected a dict at segment \'" ++ k ++ "\', found "
            ++ other.typeName)

/-- set_nested_value: parse the key path, then traverse and assign. -/
def set_nested_value (data : Node) (key_path : String) (value : Node) : Except String Node :=
  set_nested_value_go data (parse_key_path key_path) value

/-- The change-application loop of main: edits are applied in order,
the first failure aborts the run. -/
def applyChanges : Node → List (String × Node) → Except String Node
  | doc, [] => .ok doc
  | doc, (key_path, val) :: rest =>
      match set_nested_value doc key_path val with
      | .ok doc2 => applyChanges doc2 rest
      | .error e => .error e

/-- The outcome of main: the document the caller ends up with (the file
is only rewritten when the updated copy differs from the original), the
changed flag, and the error message on failure.  On failure nothing is
written, so the caller keeps the original document. -/
def moduleResult (original : Node) (changes : List (String × Node)) :
    Node × Bool × Option String :=
  match applyChanges original changes with
  | .error e => (original, false, some e)
  | .ok updated =>
      if updated ≠ original then (updated, true, none) else (original, false, none)

/-!  Theorems about the claims.  -/

/-- C1: evaluating main's pipeline at the documented end-to-end scenario:
on the empty document, the changeset from the module's own EXAMPLES block
fails with a type error (the auto-created intermediate `vllm_args` is an
empty dict and the final integer segment never coerces it to a list)
instead of producing the nested document with changed=true. -/
theorem c1_end_to_end_scenario_fails :
    moduleResult (Node.map [])
      [("serve.vllm.vllm_args[0]", Node.str "--tensor-parallel-size"),
       ("serve.vllm.vllm_args[1]", Node.str "5")]
      = (Node.map [], false, some "Expected a list for final segment 0, found dict") := by
  decide

/-- C2: coercion of empty containers never takes effect.  A single
SequenceIndex(0) edit on the empty-map root fails (no coercion at the
final segment); a single MapKey("x") edit on the empty-sequence root
fails likewise; and when coercion does trigger at a traversal segment
("[0].a" on the empty map) the coerced container is a detached local, so
the run succeeds but leaves the document unchanged with changed=false. -/
theorem c2_coercion_never_observable :
    moduleResult (Node.map []) [("[0]", Node.str "v")]
      = (Node.map [], false, some "Expected a list for final segment 0, found dict")
  ∧ moduleResult (Node.seq []) [("x", Node.str "v")]
      = (Node.seq [], false, some "Expected a dict for final segment \'x\', found list")
  ∧ moduleResult (Node.map []) [("[0].a", Node.str "v")]
      = (Node.map [], false, none) := by
  refine ⟨by decide, by decide, by decide⟩

/-- C3: a MapKey segment (traversal or final) at the non-empty sequence
[1,2,3] always fails, whatever the key, the rest of the path and the
value; and whenever a changeset application fails, main reports the
error and the caller keeps the original document with changed=false. -/
theorem c3_mapkey_on_nonempty_seq_fails_fast :
    (∀ (k : String) (rest : List Seg) (v : Node),
      ∃ e, set_nested_value_go (Node.seq [Node.int 1, Node.int 2, Node.int 3])
             (Seg.key k :: rest) v = .error e)
  ∧ (∀ (original : Node) (changes : List (String × Node)) (e : String),
      applyChanges original changes = .error e →
      moduleResult original changes = (original, false, some e)) := by
  constructor
  · intro k rest v
    cases rest with
    | nil => exact ⟨_, rfl⟩
    | cons s2 rest2 => exact ⟨_, rfl⟩
  · intro original changes e h
    simp [moduleResult, h]

/-- Witness for C3 at the concrete input of the spec. -/
theorem c3_mapkey_on_nonempty_seq_fails_fast_witness :
    (∃ e, set_nested_value_go (Node.seq [Node.int 1, Node.int 2, Node.int 3])
            [Seg.key "x"] (Node.str "v") = .error e)
  ∧ moduleResult (Node.seq [Node.int 1, Node.int 2, Node.int 3]) [("x", Node.str "v")]
      = (Node.seq [Node.int 1, Node.int 2, Node.int 3], false,
         some "Expected a dict for final segment \'x\', found list") :=
  ⟨c3_mapkey_on_nonempty_seq_fails_fast.1 "x" [] (Node.str "v"),
   c3_mapkey_on_nonempty_seq_fails_fast.2 _ _ _ (by rfl)⟩

/-- C4: on a successful run the changed flag is exactly deep structural
inequality of original and updated document, and the two concrete cases:
setting "a" to its current value 1 reports changed=false, setting it to
2 reports changed=true with final document containing a=2. -/
theorem c4_changed_flag_is_deep_inequality :
    (∀ (original : Node) (changes : List (String × Node)) (updated : Node),
      applyChanges original changes = .ok updated →
        ((moduleResult original changes).2.1 = true ↔ updated ≠ original)
      ∧ moduleResult original changes
          = if updated ≠ original then (updated, true, none) else (original, false, none))
  ∧ moduleResult (Node.map [("a", Node.int 1)]) [("a", Node.int 1)]
      = (Node.map [("a", Node.int 1)], false, none)
  ∧ moduleResult (Node.map [("a", Node.int 1)]) [("a", Node.int 2)]
      = (Node.map [("a", Node.int 2)], true, none) := by
  refine ⟨?_, by decide, by decide⟩
  intro original changes updated h
  constructor
  · simp only [moduleResult, h]
    split <;> simp_all
  · simp [moduleResult, h]

/-- Witness for C4 at the concrete unchanged case. -/
theorem c4_changed_flag_is_deep_inequality_witness :
    ((moduleResult (Node.map [("a", Node.int 1)]) [("a", Node.int 1)]).2.1 = true
      ↔ Node.map [("a", Node.int 1)] ≠ Node.map [("a", Node.int 1)]) :=
  ((c4_changed_flag_is_deep_inequality.1 _ _ _ (by rfl)).1)

/-- C6 counterexample: a changeset whose first application succeeds but
whose second application (on the result) succeeds with a different end
state and reports changed=true: a negative index resolves against the
length the first run's later edit produced. -/
theorem c6_idempotence_counterexample :
    applyChanges (Node.map [("a", Node.seq [Node.int 1, Node.int 2])])
        [("a[-2]", Node.int 9), ("a[3]", Node.int 7)]
      = .ok (Node.map [("a", Node.seq [Node.int 9, Node.int 2, Node.null, Node.int 7])])
  ∧ moduleResult (Node.map [("a", Node.seq [Node.int 9, Node.int 2, Node.null, Node.int 7])])
        [("a[-2]", Node.int 9), ("a[3]", Node.int 7)]
      = (Node.map [("a", Node.seq [Node.int 9, Node.int 2, Node.int 9, Node.int 7])],
         true, none)
  ∧ Node.map [("a", Node.seq [Node.int 9, Node.int 2, Node.int 9, Node.int 7])]
      ≠ Node.map [("a", Node.seq [Node.int 9, Node.int 2, Node.null, Node.int 7])] := by
  refine ⟨by rfl, by decide, by decide⟩

/-- C7: the parser's literal cases from the spec. -/
theorem c7_parser_literal_cases :
    parse_key_path "a.b.c" = [Seg.key "a", Seg.key "b", Seg.key "c"]
  ∧ parse_key_path "list[0]" = [Seg.key "list", Seg.idx 0]
  ∧ parse_key_path "a.b[\"x.y\"]" = [Seg.key "a", Seg.key "b", Seg.key "x.y"] := by
  refine ⟨by decide, by decide, by decide⟩

/-- C8 counterexample: the parser yields the negative index segment -1
for the path "[-1]". -/
theorem c8_negative_index_counterexample :
    parse_key_path "[-1]" = [Seg.idx (-1)]
  ∧ Seg.idx (-1) ∈ parse_key_path "[-1]" ∧ (-1 : Int) < 0 := by
  refine ⟨by decide, by decide, by decide⟩

/-- C10: a negative final index never pads (ensure_list_size is the
identity for any negative index), and on a sequence long enough it
overwrites the element at position length+i, keeping the length; the
concrete case: "a[-1]" overwrites the last element. -/
theorem c10_negative_terminal_index :
    (∀ (lst : List Node) (i : Int), i < 0 → ensure_list_size lst i = lst)
  ∧ (∀ (lst : List Node) (i : Int) (value : Node), i < 0 → 0 ≤ (lst.length : Int) + i →
      set_nested_value_go (Node.seq lst) [Seg.idx i] value
        = .ok (Node.seq (lst.set ((lst.length : Int) + i).toNat value))
      ∧ (lst.set ((lst.length : Int) + i).toNat value).length = lst.length)
  ∧ (∀ (value old1 old2 : Node),
      set_nested_value (Node.map [("a", Node.seq [old1, old2])]) "a[-1]" value
        = .ok (Node.map [("a", Node.seq [old1, value])])) := by
  have hens : ∀ (lst : List Node) (i : Int), i < 0 → ensure_list_size lst i = lst := by
    intro lst i hi
    unfold ensure_list_size
    rw [if_neg (by omega)]
  refine ⟨hens, ?_, ?_⟩
  · intro lst i value hi hlen
    constructor
    · simp only [set_nested_value_go]
      rw [hens lst i hi]
      have hpy : pyIdx lst.length i = some ((lst.length : Int) + i).toNat := by
        unfold pyIdx
        rw [if_neg (by omega), if_pos hlen]
      rw [hpy]
    · rw [List.length_set]
  · intro value old1 old2
    rfl

/-- Witness for C10 at a length-2 sequence and index -1. -/
theorem c10_negative_terminal_index_witness :
    ensure_list_size [Node.int 1, Node.int 2] (-1) = [Node.int 1, Node.int 2]
  ∧ set_nested_value_go (Node.seq [Node.int 1, Node.int 2]) [Seg.idx (-1)] (Node.int 9)
      = .ok (Node.seq [Node.int 1, Node.int 9]) :=
  ⟨c10_negative_terminal_index.1 _ _ (by decide),
   (c10_negative_terminal_index.2.1 [Node.int 1, Node.int 2] (-1) (Node.int 9)
     (by decide) (by decide)).1⟩

/-- C5: assigning at a non-negative final index n beyond the sequence's
length grows it with null placeholders up to length n+1, puts the value
at n, leaves the old elements in place; and the concrete "arr[2]" case
on an empty sequence yields [null, null, value]. -/
theorem c5_index_beyond_length_pads_with_null :
    (∀ (lst : List Node) (n : Nat) (value : Node), lst.length ≤ n →
        set_nested_value_go (Node.seq lst) [Seg.idx (n : Int)] value
          = .ok (Node.seq ((lst ++ List.replicate (n + 1 - lst.length) Node.null).set n value))
      ∧ ((lst ++ List.replicate (n + 1 - lst.length) Node.null).set n value).length = n + 1
      ∧ ((lst ++ List.replicate (n + 1 - lst.length) Node.null).set n value).getD n Node.null
          = value
      ∧ (∀ j, lst.length ≤ j → j < n →
          ((lst ++ List.replicate (n + 1 - lst.length) Node.null).set n value).getD j Node.null
            = Node.null)
      ∧ (∀ j, j < lst.length →
          ((lst ++ List.replicate (n + 1 - lst.length) Node.null).set n value).getD j Node.null
            = lst.getD j Node.null))
  ∧ (∀ value : Node,
      set_nested_value (Node.map [("arr", Node.seq [])]) "arr[2]" value
        = .ok (Node.map [("arr", Node.seq [Node.null, Node.null, value])])) := by
  constructor
  · intro lst n value h
    have hlen : (lst ++ List.replicate (n + 1 - lst.length) Node.null).length = n + 1 := by
      simp
      omega
    have hens : ensure_list_size lst (n : Int)
        = lst ++ List.replicate (n + 1 - lst.length) Node.null := by
      unfold ensure_list_size
      rw [if_pos (by exact_mod_cast h)]
      congr 2
      omega
    have hpy : pyIdx (lst ++ List.replicate (n + 1 - lst.length) Node.null).length (n : Int)
        = some n := by
      rw [hlen]
      unfold pyIdx
      rw [if_pos (by positivity), if_pos (by exact_mod_cast Nat.lt_succ_self n)]
      simp
    refine ⟨?_, ?_, ?_, ?_, ?_⟩
    · simp only [set_nested_value_go]
      rw [hens, hpy]
    · rw [List.length_set, hlen]
    · rw [List.getD_eq_getElem?_getD, List.getElem?_set_self (by omega)]
      rfl
    · intro j hj1 hj2
      rw [List.getD_eq_getElem?_getD, List.getElem?_set_ne (by omega),
        List.getElem?_append_right hj1, List.getElem?_replicate_of_lt (by omega)]
      rfl
    · intro j hj
      rw [List.getD_eq_getElem?_getD, List.getElem?_set_ne (by omega),
        List.getElem?_append_left hj, ← List.getD_eq_getElem?_getD]
  · intro value
    rfl

/-- Witness for C5 at the empty sequence and index 2. -/
theorem c5_index_beyond_length_pads_with_null_witness :
    set_nested_value_go (Node.seq []) [Seg.idx ((2 : Nat) : Int)] (Node.str "t")
      = .ok (Node.seq [Node.null, Node.null, Node.str "t"])
  ∧ ([Node.null, Node.null, Node.str "t"] : List Node).getD 0 Node.null = Node.null :=
  ⟨(c5_index_beyond_length_pads_with_null.1 [] 2 (Node.str "t") (by decide)).1,
   (c5_index_beyond_length_pads_with_null.1 [] 2 (Node.str "t")
      (by decide)).2.2.2.1 0 (by decide) (by decide)⟩

/-- Looking up the key just written returns the written value. -/
theorem mapGet_mapSet_self (m : List (String × Node)) (k : String) (v : Node) :
    mapGet (mapSet m k v) k = some v := by
  induction m with
  | nil => simp [mapSet, mapGet]
  | cons x rest ih =>
      obtain ⟨k1, v1⟩ := x
      by_cases h : k1 = k <;> simp [mapSet, mapGet, h, ih]

/-- Overwriting the same key twice keeps only the last write. -/
theorem mapSet_mapSet_self (m : List (String × Node)) (k : String) (v w : Node) :
    mapSet (mapSet m k v) k w = mapSet m k w := by
  induction m with
  | nil => simp [mapSet]
  | cons x rest ih =>
      obtain ⟨k1, v1⟩ := x
      by_cases h : k1 = k <;> simp [mapSet, h, ih]

/-- pyIdx only succeeds strictly below the length. -/
theorem pyIdx_lt {len : Nat} {i : Int} {j : Nat} (h : pyIdx len i = some j) :
    i < (len : Int) ∧ j < len := by
  unfold pyIdx at h
  split at h
  · split at h
    · injection h with h2
      omega
    · exact absurd h (by simp)
  · split at h
    · injection h with h2
      omega
    · exact absurd h (by simp)

/-- A successful patch step always returns a container node. -/
theorem set_go_ok_container :
    ∀ (segs : List Seg) (ref value out : Node),
      set_nested_value_go ref segs value = .ok out →
      (∃ l, out = Node.seq l) ∨ (∃ m, out = Node.map m) := by
  intro segs ref value out h
  cases segs with
  | nil => simp [set_nested_value_go] at h
  | cons s rest =>
    cases rest with
    | nil =>
      cases s with
      | idx i =>
        cases ref with
        | seq lst =>
            simp only [set_nested_value_go] at h
            split at h
            · injection h with h2
              exact .inl ⟨_, h2.symm⟩
            · exact absurd h (by simp)
        | str s => exact absurd h (by simp [set_nested_value_go])
        | int n => exact absurd h (by simp [set_nested_value_go])
        | bool b => exact absurd h (by simp [set_nested_value_go])
        | null => exact absurd h (by simp [set_nested_value_go])
        | map m => exact absurd h (by simp [set_nested_value_go])
      | key k =>
        cases ref with
        | map m =>
            simp only [set_nested_value_go] at h
            injection h with h2
            exact .inr ⟨_, h2.symm⟩
        | str s => exact absurd h (by simp [set_nested_value_go])
        | int n => exact absurd h (by simp [set_nested_value_go])
        | bool b => exact absurd h (by simp [set_nested_value_go])
        | null => exact absurd h (by simp [set_nested_value_go])
        | seq lst => exact absurd h (by simp [set_nested_value_go])
    | cons s2 rest2 =>
      cases s with
      | idx i =>
        cases ref with
        | seq lst =>
            simp only [set_nested_value_go] at h
            split at h
            · split at h
              · injection h with h2
                exact .inl ⟨_, h2.symm⟩
              · exact absurd h (by simp)
            · exact absurd h (by simp)
        | map m =>
            cases m with
            | nil =>
                simp only [set_nested_value_go] at h
                split at h
                · split at h
                  · injection h with h2
                    exact .inr ⟨_, h2.symm⟩
                  · exact absurd h (by simp)
                · exact absurd h (by simp)
            | cons p m2 => exact absurd h (by simp [set_nested_value_go])
        | str s => exact absurd h (by simp [set_nested_value_go])
        | int n => exact absurd h (by simp [set_nested_value_go])
        | bool b => exact absurd h (by simp [set_nested_value_go])
        | null => exact absurd h (by simp [set_nested_value_go])
      | key k =>
        cases ref with
        | map m =>
            simp only [set_nested_value_go] at h
            split at h
            · injection h with h2
              exact .inr ⟨_, h2.symm⟩
            · exact absurd h (by simp)
        | seq lst =>
            cases lst with
            | nil =>
                simp only [set_nested_value_go] at h
                split at h
                · injection h with h2
                  exact .inl ⟨_, h2.symm⟩
                · exact absurd h (by simp)
            | cons a lst2 => exact absurd h (by simp [set_nested_value_go])
        | str s => exact absurd h (by simp [set_nested_value_go])
        | int n => exact absurd h (by simp [set_nested_value_go])
        | bool b => exact absurd h (by simp [set_nested_value_go])
        | null => exact absurd h (by simp [set_nested_value_go])

/-- ensure_list_size is a no-op when the index is already in range. -/
theorem ensure_list_size_noop (L : List Node) (i : Int) (h : i < (L.length : Int)) :
    ensure_list_size L i = L := by
  unfold ensure_list_size
  rw [if_neg (by omega)]

/-- Re-applying a single successful edit to its own result reproduces
that result unchanged. -/
theorem set_go_idem :
    ∀ (segs : List Seg) (ref value out : Node),
      set_nested_value_go ref segs value = .ok out →
      set_nested_value_go out segs value = .ok out := by
  intro segs
  induction segs with
  | nil =>
    intro ref value out h
    simp [set_nested_value_go] at h
  | cons s rest ih =>
    intro ref value out h
    cases rest with
    | nil =>
      cases s with
      | idx i =>
        cases ref with
        | seq lst =>
          simp only [set_nested_value_go] at h
          split at h
          next j hpy =>
            injection h with h2
            subst h2
            have hlt := pyIdx_lt hpy
            have hens := ensure_list_size_noop ((ensure_list_size lst i).set j value) i
              (by rw [List.length_set]; exact hlt.1)
            simp only [set_nested_value_go, hens, List.length_set, hpy, List.set_set]
          next hpy => exact absurd h (by simp)
        | str s => exact absurd h (by simp [set_nested_value_go])
        | int n => exact absurd h (by simp [set_nested_value_go])
        | bool b => exact absurd h (by simp [set_nested_value_go])
        | null => exact absurd h (by simp [set_nested_value_go])
        | map m => exact absurd h (by simp [set_nested_value_go])
      | key k =>
        cases ref with
        | map m =>
          simp only [set_nested_value_go] at h
          injection h with h2
          subst h2
          simp only [set_nested_value_go, mapSet_mapSet_self]
        | str s => exact absurd h (by simp [set_nested_value_go])
        | int n => exact absurd h (by simp [set_nested_value_go])
        | bool b => exact absurd h (by simp [set_nested_value_go])
        | null => exact absurd h (by simp [set_nested_value_go])
        | seq lst => exact absurd h (by simp [set_nested_value_go])
    | cons s2 rest2 =>
      cases s with
      | idx i =>
        cases ref with
        | seq lst =>
          simp only [set_nested_value_go] at h
          split at h
          next j hpy =>
            split at h
            next c3 hrec =>
              injection h with h2
              subst h2
              have hlt := pyIdx_lt hpy
              have hens := ensure_list_size_noop ((ensure_list_size lst i).set j c3) i
                (by rw [List.length_set]; exact hlt.1)
              have hchild : ((ensure_list_size lst i).set j c3).getD j Node.null = c3 := by
                rw [List.getD_eq_getElem?_getD, List.getElem?_set_self (by omega)]
                rfl
              have hnull : c3.isNull = false := by
                rcases set_go_ok_container _ _ _ _ hrec with ⟨l, h3⟩ | ⟨m, h3⟩ <;>
                  subst h3 <;> rfl
              have hih := ih _ value _ hrec
              simp only [set_nested_value_go, hens, List.length_set, hpy, hchild, hnull,
                Bool.false_eq_true, if_false, hih, List.set_set]
            next e hrec => exact absurd h (by simp)
          next hpy => exact absurd h (by simp)
        | map m =>
          cases m with
          | nil =>
            simp only [set_nested_value_go] at h
            split at h
            next hpos =>
              split at h
              next w hrec =>
                injection h with h2
                subst h2
                simp only [set_nested_value_go, hrec, hpos, if_true]
              next e hrec => exact absurd h (by simp)
            next hpos => exact absurd h (by simp)
          | cons p m2 => exact absurd h (by simp [set_nested_value_go])
        | str s => exact absurd h (by simp [set_nested_value_go])
        | int n => exact absurd h (by simp [set_nested_value_go])
        | bool b => exact absurd h (by simp [set_nested_value_go])
        | null => exact absurd h (by simp [set_nested_value_go])
      | key k =>
        cases ref with
        | map m =>
          simp only [set_nested_value_go] at h
          split at h
          next c2 hrec =>
            injection h with h2
            subst h2
            have hih := ih _ value _ hrec
            simp only [set_nested_value_go, mapGet_mapSet_self, hih, mapSet_mapSet_self]
          next e hrec => exact absurd h (by simp)
        | seq lst =>
          cases lst with
          | nil =>
            simp only [set_nested_value_go] at h
            split at h
            next w hrec =>
              injection h with h2
              subst h2
              simp only [set_nested_value_go, hrec]
            next e hrec => exact absurd h (by simp)
          | cons a lst2 => exact absurd h (by simp [set_nested_value_go])
        | str s => exact absurd h (by simp [set_nested_value_go])
        | int n => exact absurd h (by simp [set_nested_value_go])
        | bool b => exact absurd h (by simp [set_nested_value_go])
        | null => exact absurd h (by simp [set_nested_value_go])

/-- C6 amended: for a single-edit changeset whose application succeeds,
applying it again to the result succeeds with the same end state, and
that second application reports changed=false. -/
theorem c6_single_edit_idempotent :
    ∀ (d d1 : Node) (key_path : String) (value : Node),
      applyChanges d [(key_path, value)] = .ok d1 →
        applyChanges d1 [(key_path, value)] = .ok d1
      ∧ moduleResult d1 [(key_path, value)] = (d1, false, none) := by
  intro d d1 kp v h
  simp only [applyChanges, set_nested_value] at h
  split at h
  next doc2 hrec =>
    injection h with h2
    subst h2
    have hid := set_go_idem _ _ _ _ hrec
    constructor
    · simp only [applyChanges, set_nested_value, hid]
    · simp [moduleResult, applyChanges, set_nested_value, hid]
  next e hrec => exact absurd h (by simp)

/-- Witness for C6 amended at a concrete single-edit changeset. -/
theorem c6_single_edit_idempotent_witness :
    applyChanges (Node.map [("a", Node.int 1)]) [("a", Node.int 1)]
      = .ok (Node.map [("a", Node.int 1)])
  ∧ moduleResult (Node.map [("a", Node.int 1)]) [("a", Node.int 1)]
      = (Node.map [("a", Node.int 1)], false, none) :=
  c6_single_edit_idempotent (Node.map []) _ "a" (Node.int 1) (by rfl)

/-- Membership survives pyStrip. -/
theorem mem_of_mem_pyStrip {p : Char → Bool} {l : List Char} {x : Char}
    (h : x ∈ pyStrip p l) : x ∈ l := by
  unfold pyStrip at h
  rw [List.mem_reverse] at h
  have h2 := (List.dropWhile_sublist p).mem h
  rw [List.mem_reverse] at h2
  exact (List.dropWhile_sublist p).mem h2

/-- Membership survives the quote/whitespace stripping of the `]` branch. -/
theorem mem_of_mem_bracketContent {cur : List Char} {x : Char}
    (h : x ∈ bracketContent cur) : x ∈ cur := by
  unfold bracketContent at h
  exact mem_of_mem_pyStrip (mem_of_mem_pyStrip (mem_of_mem_pyStrip h))

/-- Without a minus sign in the text, pyInt only returns non-negatives. -/
theorem pyInt_nonneg {l : List Char} {i : Int} (hm : '-' ∉ l) (h : pyInt l = some i) :
    0 ≤ i := by
  cases l with
  | nil => simp [pyInt] at h
  | cons c d =>
    have hc : ¬ (c = '-') := fun hh => hm (by rw [hh]; exact List.mem_cons_self _ _)
    simp only [pyInt, if_neg hc] at h
    by_cases hp : c = '+'
    · rw [if_pos hp] at h
      cases hpc : pyIntCore d with
      | none => rw [hpc] at h; simp at h
      | some n => rw [hpc] at h; simp at h; omega
    · rw [if_neg hp] at h
      cases hpc : pyIntCore (c :: d) with
      | none => rw [hpc] at h; simp at h
      | some n => rw [hpc] at h; simp at h; omega

/-- An index segment in the flushed list was already in the segments:
the flush only ever appends a key segment. -/
theorem idx_mem_flushCurrent {st : ParseState} {i : Int}
    (h : Seg.idx i ∈ flushCurrent st) : Seg.idx i ∈ st.segments := by
  unfold flushCurrent at h
  split at h
  · exact h
  · rcases List.mem_append.mp h with h2 | h2
    · exact h2
    · simp at h2

/-- Loop invariant of the parser: if neither the remaining characters
nor the accumulating segment contain a minus sign, every index segment
ever produced is non-negative. -/
theorem parse_inv :
    ∀ (cs : List Char) (st : ParseState), '-' ∉ cs → '-' ∉ st.current →
      (∀ i : Int, Seg.idx i ∈ st.segments → 0 ≤ i) →
      (∀ i : Int, Seg.idx i ∈ (cs.foldl parseStep st).segments → 0 ≤ i)
      ∧ '-' ∉ (cs.foldl parseStep st).current := by
  intro cs
  induction cs with
  | nil =>
    intro st h1 h2 h3
    exact ⟨h3, h2⟩
  | cons c cs ih =>
    intro st hcs hcur hsegs
    have hc : ¬ (c = '-') := fun hh => hcs (by rw [hh]; exact List.mem_cons_self _ _)
    have hcs2 : '-' ∉ cs := fun hh => hcs (List.mem_cons_of_mem _ hh)
    rw [List.foldl_cons]
    apply ih (parseStep st c) hcs2
    · simp only [parseStep]
      split
      · simp
      · split
        · simp
        · split
          · simp
          · intro hmem
            rcases List.mem_append.mp hmem with hmem2 | hmem2
            · exact hcur hmem2
            · simp only [List.mem_singleton] at hmem2
              exact hc hmem2.symm
    · intro i hmem
      simp only [parseStep] at hmem
      split at hmem
      · exact hsegs i (idx_mem_flushCurrent hmem)
      · split at hmem
        · exact hsegs i (idx_mem_flushCurrent hmem)
        · split at hmem
          · rcases List.mem_append.mp hmem with h2 | h2
            · exact hsegs i h2
            · simp only [List.mem_singleton] at h2
              cases hpi : pyInt (bracketContent st.current) with
              | some n =>
                  rw [hpi] at h2
                  have hnm : '-' ∉ bracketContent st.current :=
                    fun hh => hcur (mem_of_mem_bracketContent hh)
                  have hge := pyInt_nonneg hnm hpi
                  injection h2 with h3
                  omega
              | none =>
                  rw [hpi] at h2
                  exact absurd h2 (by simp)
          · exact hsegs i hmem

/-- C8 amended: for input strings containing no minus sign, every
SequenceIndex segment the parser produces is non-negative (and in
general the parser does yield negative segments, see the
counterexample "[-1]"). -/
theorem c8_no_minus_parse_nonneg :
    ∀ (s : String) (i : Int), '-' ∉ s.data → Seg.idx i ∈ parse_key_path s → 0 ≤ i := by
  intro s i hs hmem
  unfold parse_key_path at hmem
  exact (parse_inv s.data ⟨[], [], false⟩ hs (by simp) (by simp)).1 i
    (idx_mem_flushCurrent hmem)

/-- Witness for C8 amended at the path "a[3]". -/
theorem c8_no_minus_parse_nonneg_witness :
    Seg.idx 3 ∈ parse_key_path "a[3]" ∧ (0 : Int) ≤ 3 :=
  ⟨by decide, c8_no_minus_parse_nonneg "a[3]" 3 (by decide) (by decide)⟩

/-- Inside an open bracket every further character (other than brackets)
just accumulates into the current segment. -/
theorem foldl_in_brackets :
    ∀ (cs : List Char) (S : List Seg) (cur : List Char), '[' ∉ cs → ']' ∉ cs →
      cs.foldl parseStep ⟨S, cur, true⟩ = ⟨S, cur ++ cs, true⟩ := by
  intro cs
  induction cs with
  | nil =>
    intro S cur h1 h2
    simp
  | cons c cs ih =>
    intro S cur h1 h2
    have hcb : ¬ (c = '[') := fun hh => h1 (by rw [hh]; exact List.mem_cons_self _ _)
    have hcc : ¬ (c = ']') := fun hh => h2 (by rw [hh]; exact List.mem_cons_self _ _)
    have h1b : '[' ∉ cs := fun hh => h1 (List.mem_cons_of_mem _ hh)
    have h2b : ']' ∉ cs := fun hh => h2 (List.mem_cons_of_mem _ hh)
    rw [List.foldl_cons]
    have hstep : parseStep ⟨S, cur, true⟩ c = ⟨S, cur ++ [c], true⟩ := by
      unfold parseStep
      rw [if_neg (by simp), if_neg hcb, if_neg hcc]
    rw [hstep, ih _ _ h1b h2b, List.append_assoc, List.singleton_append]

/-- C9: the parser is total (it is a plain function on all strings) and
a path with an unclosed bracket degrades to keeping the remainder as one
final bracket-content segment instead of failing: whatever came before
the `[`, the remainder r (bracket- free) is flushed verbatim as one key
segment, or nothing when empty. -/
theorem c9_parser_total_unclosed_bracket :
    ∀ (s r : String), '[' ∉ r.data → ']' ∉ r.data →
      parse_key_path (s ++ "[" ++ r)
        = parse_key_path (s ++ "[") ++ (if r.data = [] then [] else [Seg.key r]) := by
  intro s r h1 h2
  unfold parse_key_path
  have hdata : (s ++ "[" ++ r).data = (s ++ "[").data ++ r.data := String.data_append _ _
  have hdata2 : (s ++ "[").data = s.data ++ ['['] := by
    rw [String.data_append]
  obtain ⟨S, hS⟩ : ∃ S, (s ++ "[").data.foldl parseStep ⟨[], [], false⟩ = ⟨S, [], true⟩ := by
    rw [hdata2, List.foldl_append]
    refine ⟨flushCurrent (s.data.foldl parseStep ⟨[], [], false⟩), ?_⟩
    simp only [List.foldl_cons, List.foldl_nil]
    unfold parseStep
    rw [if_neg (by simp), if_pos rfl]
  rw [hdata, List.foldl_append, hS, foldl_in_brackets r.data S [] h1 h2]
  have hf1 : flushCurrent ⟨S, [], true⟩ = S := by simp [flushCurrent]
  have hf2 : flushCurrent ⟨S, [] ++ r.data, true⟩
      = if r.data = [] then S else S ++ [Seg.key r] := by
    by_cases hr : r.data = []
    · simp [flushCurrent, hr]
    · simp only [List.nil_append, flushCurrent, if_neg hr]
  rw [hf1, hf2]
  by_cases hr : r.data = [] <;> simp [hr]

/-- Witness for C9 at "a" and remainder "x.y". -/
theorem c9_parser_total_unclosed_bracket_witness :
    parse_key_path ("a" ++ "[" ++ "x.y")
      = parse_key_path ("a" ++ "[")
        ++ (if ("x.y" : String).data = [] then [] else [Seg.key "x.y"]) :=
  c9_parser_total_unclosed_bracket "a" "x.y" (by decide) (by decide)

end YamlEdit
